import Mathlib

/-!
# Verification of `VectorUtils` (Brain-AI-Framework Rust SDK)

Shallow embedding of the vector utilities from
`sdk/rust/brain-ai.rs` (`impl VectorUtils`).  `f64` is modelled by `ℝ`,
a Rust `panic!` by `none` in an `Option` result, and the `rand` crate's
`gen_range` draw by an abstract sample `u ∈ [0,1)` (the crate is external
to the repository, so that primitive is modelled from its documented
contract).
-/

namespace VectorUtils

/-- The accumulation loop of `cosine_similarity`:
`for i in 0..len { dot += a[i]*b[i]; norm_a += a[i]*a[i]; norm_b += b[i]*b[i] }`. -/
def loopAccum : List ℝ → List ℝ → ℝ × ℝ × ℝ → ℝ × ℝ × ℝ
  | a :: as, b :: bs, (d, na, nb) => loopAccum as bs (d + a * b, na + a * a, nb + b * b)
  | _, _, acc => acc

/-- `VectorUtils::cosine_similarity`.  The length-check `panic!` is `none`;
otherwise the single-pass loop accumulates the dot product and both squared
norms, and a zero denominator yields `0.0`. -/
noncomputable def cosine_similarity (vec_a vec_b : List ℝ) : Option ℝ :=
  if vec_a.length ≠ vec_b.length then none
  else
    let acc := loopAccum vec_a vec_b (0, 0, 0)
    let denominator := Real.sqrt acc.2.1 * Real.sqrt acc.2.2
    if denominator = 0 then some 0 else some (acc.1 / denominator)

/-- `VectorUtils::normalize`: `norm = sqrt(sum x*x)`; a zero norm returns the
input unchanged, otherwise every component is divided by the norm. -/
noncomputable def normalize (vector : List ℝ) : List ℝ :=
  let norm := Real.sqrt ((vector.map (fun x => x * x)).sum)
  if norm = 0 then vector else vector.map (fun x => x / norm)

/-- `VectorUtils::euclidean_distance`.  The length-check `panic!` is `none`;
otherwise the sum of squared componentwise differences is rooted. -/
noncomputable def euclidean_distance (vec_a vec_b : List ℝ) : Option ℝ :=
  if vec_a.length ≠ vec_b.length then none
  else some (Real.sqrt ((List.zipWith (fun a b => (a - b) * (a - b)) vec_a vec_b).sum))

/-- Modelled from the spec: the `rand` crate is not part of this repository.
`rng.gen_range(min..max)` draws from the half-open range `[min, max)` and
panics when the range is empty (`min >= max`).  One draw is modelled by an
abstract sample `u` (uniform on `[0,1)`) mapped affinely onto the range, and
the panic by `none`. -/
noncomputable def gen_range (lo hi u : ℝ) : Option ℝ :=
  if lo < hi then some (lo + u * (hi - lo)) else none

/-- `collect()` over the fallible draws: a panic in any draw aborts the whole
call. -/
noncomputable def sampleList (lo hi : ℝ) : List ℝ → Option (List ℝ)
  | [] => some []
  | x :: xs =>
    match gen_range lo hi x, sampleList lo hi xs with
    | some y, some ys => some (y :: ys)
    | _, _ => none

/-- `VectorUtils::random_vector`: one draw per index of `0..dimensions`,
with `u i` the abstract uniform sample used by the `i`-th draw. -/
noncomputable def random_vector (dimensions : ℕ) (lo hi : ℝ) (u : ℕ → ℝ) :
    Option (List ℝ) :=
  sampleList lo hi ((List.range dimensions).map u)

/-- Spec-side dot product: `dot(a,b) = sum over i of a_i * b_i`. -/
noncomputable def dotSpec (a b : List ℝ) : ℝ :=
  ∑ i ∈ Finset.range a.length, a.getD i 0 * b.getD i 0

/-- Spec-side Euclidean norm: `||v|| = sqrt(sum of v_i^2)`. -/
noncomputable def normSpec (v : List ℝ) : ℝ :=
  Real.sqrt (∑ i ∈ Finset.range v.length, (v.getD i 0) ^ 2)

/-- Spec-side Euclidean distance: `sqrt(sum over i of (a_i - b_i)^2)`. -/
noncomputable def distSpec (a b : List ℝ) : ℝ :=
  Real.sqrt (∑ i ∈ Finset.range a.length, (a.getD i 0 - b.getD i 0) ^ 2)

/-- The squared-norm accumulator of `normalize` and of the loop. -/
def sumsq (v : List ℝ) : ℝ := (v.map (fun x => x * x)).sum

theorem sum_map_getD (g : ℝ → ℝ) :
    ∀ v : List ℝ, (v.map g).sum = ∑ i ∈ Finset.range v.length, g (v.getD i 0)
  | [] => by simp
  | x :: xs => by
    rw [List.map_cons, List.sum_cons, sum_map_getD g xs, List.length_cons,
      Finset.sum_range_succ']
    simp [add_comm]

theorem zipWith_sum_getD (f : ℝ → ℝ → ℝ) :
    ∀ a b : List ℝ, a.length = b.length →
      (List.zipWith f a b).sum =
        ∑ i ∈ Finset.range a.length, f (a.getD i 0) (b.getD i 0)
  | [], [], _ => by simp
  | [], _ :: _, h => by simp at h
  | _ :: _, [], h => by simp at h
  | a :: as, b :: bs, h => by
    rw [List.zipWith_cons_cons, List.sum_cons,
      zipWith_sum_getD f as bs (by simpa using h), List.length_cons,
      Finset.sum_range_succ']
    simp [add_comm]

theorem loopAccum_eq :
    ∀ (a b : List ℝ), a.length = b.length → ∀ d na nb : ℝ,
      loopAccum a b (d, na, nb) =
        (d + (List.zipWith (fun x y => x * y) a b).sum, na + sumsq a, nb + sumsq b)
  | [], [], _, d, na, nb => by simp [loopAccum, sumsq]
  | [], _ :: _, h, _, _, _ => by simp at h
  | _ :: _, [], h, _, _, _ => by simp at h
  | a :: as, b :: bs, h, d, na, nb => by
    rw [loopAccum, loopAccum_eq as bs (by simpa using h)]
    simp only [List.zipWith_cons_cons, List.sum_cons, sumsq, List.map_cons]
    ring_nf
    simp [add_assoc]

theorem sumsq_nonneg (v : List ℝ) : 0 ≤ sumsq v := by
  refine List.sum_nonneg ?_
  intro x hx
  obtain ⟨y, _, rfl⟩ := List.mem_map.mp hx
  exact mul_self_nonneg y

theorem sumsq_eq (v : List ℝ) :
    sumsq v = ∑ i ∈ Finset.range v.length, (v.getD i 0) ^ 2 := by
  rw [sumsq, sum_map_getD]
  exact Finset.sum_congr rfl fun i _ => (pow_two (v.getD i 0)).symm

theorem normSpec_eq (v : List ℝ) : normSpec v = Real.sqrt (sumsq v) := by
  rw [normSpec, sumsq_eq]

theorem normSpec_eq_zero_iff (v : List ℝ) : normSpec v = 0 ↔ sumsq v = 0 := by
  rw [normSpec_eq]
  exact Real.sqrt_eq_zero (sumsq_nonneg v)

theorem cosine_similarity_eq (a b : List ℝ) (h : a.length = b.length) :
    cosine_similarity a b =
      if Real.sqrt (sumsq a) * Real.sqrt (sumsq b) = 0 then some 0
      else some ((List.zipWith (fun x y => x * y) a b).sum
        / (Real.sqrt (sumsq a) * Real.sqrt (sumsq b))) := by
  rw [cosine_similarity, if_neg (by simp [h])]
  simp only [loopAccum_eq a b h 0 0 0, zero_add]

/-- C1: for equal-length vectors `a`, `b` whose Euclidean norms are both
nonzero, `cosine_similarity a b` returns `dot(a,b) / (||a|| * ||b||)`. -/
theorem cosine_similarity_spec (a b : List ℝ)
    (hlen : a.length = b.length) (ha : normSpec a ≠ 0) (hb : normSpec b ≠ 0) :
    cosine_similarity a b = some (dotSpec a b / (normSpec a * normSpec b)) := by
  have hdot : (List.zipWith (fun x y => x * y) a b).sum = dotSpec a b :=
    (zipWith_sum_getD (fun x y => x * y) a b hlen).trans rfl
  have ha' : Real.sqrt (sumsq a) ≠ 0 := by rw [← normSpec_eq]; exact ha
  have hb' : Real.sqrt (sumsq b) ≠ 0 := by rw [← normSpec_eq]; exact hb
  rw [cosine_similarity_eq a b hlen, if_neg (mul_ne_zero ha' hb'), hdot,
    normSpec_eq, normSpec_eq]

/-- Witness for C1 at `a = b = [1]`. -/
theorem cosine_similarity_spec_witness :
    normSpec [1] ≠ 0 ∧
      cosine_similarity [1] [1] = some (dotSpec [1] [1] / (normSpec [1] * normSpec [1])) := by
  have h1 : normSpec ([1] : List ℝ) ≠ 0 := by
    simp [normSpec, Finset.sum_range_one, Real.sqrt_one]
  exact ⟨h1, cosine_similarity_spec [1] [1] rfl h1 h1⟩

/-- C2: a length mismatch makes both `cosine_similarity` and
`euclidean_distance` signal failure immediately (panic, modelled as `none`). -/
theorem length_mismatch_fails (a b : List ℝ) (h : a.length ≠ b.length) :
    cosine_similarity a b = none ∧ euclidean_distance a b = none := by
  constructor
  · rw [cosine_similarity, if_pos h]
  · rw [euclidean_distance, if_pos h]

/-- Witness for C2 at `a = [1,2]`, `b = [1,2,3]`. -/
theorem length_mismatch_fails_witness :
    ([1, 2] : List ℝ).length ≠ ([1, 2, 3] : List ℝ).length ∧
      cosine_similarity [1, 2] [1, 2, 3] = none ∧
      euclidean_distance [1, 2] [1, 2, 3] = none :=
  ⟨by simp, length_mismatch_fails [1, 2] [1, 2, 3] (by simp)⟩

/-- C3: for equal-length vectors, if either Euclidean norm is exactly zero,
`cosine_similarity` returns `0.0` instead of dividing by zero. -/
theorem cosine_similarity_zero_norm (a b : List ℝ)
    (hlen : a.length = b.length) (h0 : normSpec a = 0 ∨ normSpec b = 0) :
    cosine_similarity a b = some 0 := by
  have hcond : Real.sqrt (sumsq a) * Real.sqrt (sumsq b) = 0 := by
    rcases h0 with h | h
    · rw [normSpec_eq] at h
      rw [h, zero_mul]
    · rw [normSpec_eq] at h
      rw [h, mul_zero]
  rw [cosine_similarity_eq a b hlen, if_pos hcond]

/-- Witness for C3 at `a = [0]`, `b = [1]`. -/
theorem cosine_similarity_zero_norm_witness :
    normSpec [0] = 0 ∧ cosine_similarity [0] [1] = some 0 := by
  have h : normSpec ([0] : List ℝ) = 0 := by
    simp [normSpec, Finset.sum_range_one]
  exact ⟨h, cosine_similarity_zero_norm [0] [1] rfl (Or.inl h)⟩

/-- C5: for equal-length vectors, `euclidean_distance a b` returns
`sqrt(sum over i of (a_i - b_i)^2)`. -/
theorem euclidean_distance_spec (a b : List ℝ) (hlen : a.length = b.length) :
    euclidean_distance a b = some (distSpec a b) := by
  rw [euclidean_distance, if_neg (by simp [hlen]), distSpec,
    zipWith_sum_getD (fun x y => (x - y) * (x - y)) a b hlen]
  congr 2
  exact Finset.sum_congr rfl fun i _ => (pow_two _).symm

/-- Witness for C5 at `a = [3]`, `b = [4]`. -/
theorem euclidean_distance_spec_witness :
    ([3] : List ℝ).length = ([4] : List ℝ).length ∧
      euclidean_distance [3] [4] = some (distSpec [3] [4]) :=
  ⟨rfl, euclidean_distance_spec [3] [4] rfl⟩

theorem sumsq_cons (x : ℝ) (xs : List ℝ) : sumsq (x :: xs) = x * x + sumsq xs := by
  simp [sumsq]

theorem sumsq_map_div (c : ℝ) :
    ∀ v : List ℝ, sumsq (v.map (fun x => x / c)) = sumsq v / c ^ 2
  | [] => by simp [sumsq]
  | x :: xs => by
    rw [List.map_cons, sumsq_cons, sumsq_cons, sumsq_map_div c xs]
    ring

theorem normalize_eq (v : List ℝ) :
    normalize v = if normSpec v = 0 then v else v.map (fun x => x / normSpec v) := by
  simp only [normalize, normSpec_eq, sumsq]

/-- C4: `normalize` preserves length (the input list is a pure value, never
mutated); a zero-norm input comes back unchanged, otherwise component `i` of
the result is `v_i / ||v||`. -/
theorem normalize_componentwise (v : List ℝ) :
    (normalize v).length = v.length ∧
    (normSpec v = 0 → normalize v = v) ∧
    (normSpec v ≠ 0 → ∀ i : ℕ,
      (normalize v).get? i = (v.get? i).map (fun x => x / normSpec v)) := by
  refine ⟨?_, ?_, ?_⟩
  · rw [normalize_eq]
    by_cases h : normSpec v = 0
    · rw [if_pos h]
    · rw [if_neg h, List.length_map]
  · intro h
    rw [normalize_eq, if_pos h]
  · intro h i
    rw [normalize_eq, if_neg h, List.get?_map]

/-- Witness for C4 at `v = [3, 4]`, component `0`. -/
theorem normalize_componentwise_witness :
    normSpec [3, 4] ≠ 0 ∧
      (normalize [3, 4]).get? 0
        = (([3, 4] : List ℝ).get? 0).map (fun x => x / normSpec [3, 4]) := by
  have h : normSpec ([3, 4] : List ℝ) ≠ 0 := by
    rw [normSpec]
    refine ne_of_gt (Real.sqrt_pos.mpr ?_)
    norm_num [Finset.sum_range_succ, Finset.sum_range_zero, List.getD_cons_zero,
      List.getD_cons_succ]
  exact ⟨h, (normalize_componentwise [3, 4]).2.2 h 0⟩

/-- C7: normalizing a vector of nonzero norm yields a unit-norm vector (exact
in the real-number model), and normalizing a zero vector returns it
unchanged. -/
theorem normalize_unit_norm (v : List ℝ) (n : ℕ) :
    (normSpec v ≠ 0 → normSpec (normalize v) = 1) ∧
    normalize (List.replicate n (0 : ℝ)) = List.replicate n 0 := by
  constructor
  · intro h
    have hs0 : sumsq v ≠ 0 := fun c => h (by rw [normSpec_eq, c, Real.sqrt_zero])
    have hsq : normSpec v ^ 2 = sumsq v := by
      rw [normSpec_eq]
      exact Real.sq_sqrt (sumsq_nonneg v)
    rw [normalize_eq, if_neg h, normSpec_eq, sumsq_map_div, hsq, div_self hs0,
      Real.sqrt_one]
  · have h0 : sumsq (List.replicate n (0 : ℝ)) = 0 := by
      simp [sumsq, List.map_replicate]
    rw [normalize_eq, if_pos (by rw [normSpec_eq, h0, Real.sqrt_zero])]

/-- Witness for C7 at `v = [1]` and `n = 2`. -/
theorem normalize_unit_norm_witness :
    normSpec [1] ≠ 0 ∧ normSpec (normalize [1]) = 1 ∧
      normalize (List.replicate 2 (0 : ℝ)) = List.replicate 2 0 := by
  have h : normSpec ([1] : List ℝ) ≠ 0 := by
    simp [normSpec, Finset.sum_range_one, Real.sqrt_one]
  exact ⟨h, (normalize_unit_norm [1] 2).1 h, (normalize_unit_norm [1] 2).2⟩

/-- C8: cosine similarity is symmetric (unconditionally: on a length
mismatch both orders panic). -/
theorem cosine_similarity_symm (a b : List ℝ) :
    cosine_similarity a b = cosine_similarity b a := by
  by_cases h : a.length = b.length
  · have hzip : List.zipWith (fun x y => x * y) a b
        = List.zipWith (fun x y => x * y) b a :=
      List.zipWith_comm_of_comm _ (fun x y => mul_comm x y) a b
    rw [cosine_similarity_eq a b h, cosine_similarity_eq b a h.symm, hzip,
      mul_comm (Real.sqrt (sumsq b)) (Real.sqrt (sumsq a))]
  · rw [cosine_similarity, cosine_similarity, if_pos h, if_pos (Ne.symm h)]

/-- C9: euclidean distance is symmetric (unconditionally: on a length
mismatch both orders panic) and the distance from a vector to itself is
`0.0`. -/
theorem euclidean_distance_symm_self (a b : List ℝ) :
    euclidean_distance a b = euclidean_distance b a ∧
      euclidean_distance a a = some 0 := by
  constructor
  · by_cases h : a.length = b.length
    · have hzip : List.zipWith (fun x y => (x - y) * (x - y)) a b
          = List.zipWith (fun x y => (x - y) * (x - y)) b a :=
        List.zipWith_comm_of_comm _ (fun x y => by ring) a b
      rw [euclidean_distance, euclidean_distance, if_neg (by simp [h]),
        if_neg (by simp [h.symm]), hzip]
    · rw [euclidean_distance, euclidean_distance, if_pos h, if_pos (Ne.symm h)]
  · rw [euclidean_distance, if_neg (by simp)]
    rw [List.zipWith_same]
    simp [sub_self]

/-- Helper for C6: when the range is non-empty and every abstract sample lies
in `[0,1)`, the whole sampled list exists and lies in `[lo, hi)`. -/
theorem sampleList_mem_range (lo hi : ℝ) (hlt : lo < hi) :
    ∀ us : List ℝ, (∀ x ∈ us, 0 ≤ x ∧ x < 1) →
      ∃ v, sampleList lo hi us = some v ∧ v.length = us.length ∧
        ∀ y ∈ v, lo ≤ y ∧ y < hi
  | [], _ => ⟨[], rfl, rfl, by simp⟩
  | x :: xs, h => by
    obtain ⟨v, hv, hlen2, hmem⟩ := sampleList_mem_range lo hi hlt xs
      (fun y hy => h y (List.mem_cons_of_mem _ hy))
    obtain ⟨hx0, hx1⟩ := h x (List.mem_cons_self _ _)
    refine ⟨(lo + x * (hi - lo)) :: v, ?_, by simp [hlen2], ?_⟩
    · simp only [sampleList, gen_range, if_pos hlt, hv]
    · intro y hy
      rcases List.mem_cons.mp hy with rfl | hy
      · exact ⟨by nlinarith, by nlinarith⟩
      · exact hmem y hy

/-- C6 counterexample: with `min = max = 0` and `dimensions = 1` the first
draw panics (`rand` cannot sample an empty range), so no vector is
returned — the claim's `min <= max` precondition is too weak. -/
theorem random_vector_empty_range_panics :
    random_vector 1 0 0 (fun _ => 1 / 2) = none := by
  have hr : List.range 1 = [0] := rfl
  have hg : gen_range (0 : ℝ) 0 (1 / 2) = none := by
    rw [gen_range, if_neg (lt_irrefl 0)]
  simp only [random_vector, hr, List.map_cons, List.map_nil, sampleList, hg]

/-- C6 (amended): for `min < max`, `random_vector` returns a vector of length
`dimensions` whose components all lie in `[min, max)`, given that every
abstract uniform sample lies in `[0, 1)`. -/
theorem random_vector_in_range (dims : ℕ) (lo hi : ℝ) (u : ℕ → ℝ)
    (hlt : lo < hi) (hu : ∀ i, 0 ≤ u i ∧ u i < 1) :
    ∃ v, random_vector dims lo hi u = some v ∧ v.length = dims ∧
      ∀ y ∈ v, lo ≤ y ∧ y < hi := by
  obtain ⟨v, hv, hlen, hmem⟩ := sampleList_mem_range lo hi hlt
    ((List.range dims).map u)
    (by
      intro x hx
      obtain ⟨i, _, rfl⟩ := List.mem_map.mp hx
      exact hu i)
  exact ⟨v, hv, by simpa using hlen, hmem⟩

/-- Witness for C6 (amended) at `dimensions = 2`, range `[0, 1)`, constant
sample `1/2`. -/
theorem random_vector_in_range_witness :
    (0 : ℝ) < 1 ∧ ∃ v, random_vector 2 0 1 (fun _ => 1 / 2) = some v ∧
      v.length = 2 ∧ ∀ y ∈ v, (0 : ℝ) ≤ y ∧ y < 1 :=
  ⟨by norm_num, random_vector_in_range 2 0 1 (fun _ => 1 / 2) (by norm_num)
    (fun i => by norm_num)⟩

/-- C10: with `dimensions = 0` the range of draws is empty, so
`random_vector` returns the empty vector for every `min`, `max` (even
`min > max`) without any failure. -/
theorem random_vector_zero_dims (lo hi : ℝ) (u : ℕ → ℝ) :
    random_vector 0 lo hi u = some [] := rfl

end VectorUtils
